import Mathlib

/-!
Shallow embedding of the revm execution core:
`src/machine/machine.rs` (Gas ledger, Machine step loop, `return_value`) and
`crates/interpreter/src/interpreter/ext_bytecode.rs` (execution cursor).

Machine integers: Rust `u64`/`i64` arithmetic in the gas ledger is modelled
on `Nat`/`Int` with explicit reduction modulo `2^64` (release-mode wrapping
semantics); `U256` values are `Nat` and the fallible conversions
(`as_usize`, `U256` subtraction, which panic in the `uint` crate on
overflow/underflow) are modelled as `Option`-returning, `none` standing for
a panic.

Program-counter arithmetic (`usize`) is modelled on plain `Nat`: an opcode is
dispatched only at `pc < code.length`, code buffers fit in memory
(`length ≤ isize::MAX`), and a `ContinueN` step width is a `u32` (spec §6),
so every computed counter stays far below `2^64` and wrapping is unreachable.
-/

namespace Revm

/-- Two to the sixty-fourth, the `u64`/`usize` modulus. -/
def U64 : Nat := 2 ^ 64

/-- The value `usize::MAX` on a 64-bit target. -/
def usizeMAX : Nat := 2 ^ 64 - 1

/-- Wrap an `Int` into the twos-complement `i64` range (release-mode
Rust `i64` addition semantics). -/
def iwrap64 (x : Int) : Int := (x + 2 ^ 63) % 2 ^ 64 - 2 ^ 63

/-- Modelled from the spec: `error.rs` (the `ExitSucceed` half of the closed
set of terminal reasons, §7) is not under `src/`; only `Stopped` is named by
the code under `src/`. -/
inductive ExitSucceed
  | Stopped
  | Returned
deriving DecidableEq

/-- Modelled from the spec: `error.rs` (the fault half of the closed set of
terminal reasons, §7) is not under `src/`; only `OutOfGas` is named by the
code under `src/`. -/
inductive ExitError
  | OutOfGas
  | InvalidJump
  | StackUnderflow
  | StackOverflow
  | OutOfBounds
deriving DecidableEq

/-- Modelled from the spec: `error.rs` is not under `src/`; §7 partitions
terminal reasons into successful halts, reverts and faults. -/
inductive ExitReason
  | Succeed (s : ExitSucceed)
  | Revert
  | Error (e : ExitError)
deriving DecidableEq

/-- Source `ExitSucceed::Stopped.into()`, the implicit-STOP reason. -/
def stopReason : ExitReason := .Succeed .Stopped

/-- The gas ledger (`struct Gas` in `machine.rs`): fields are `u64` except
the signed `i64` refund accumulator. -/
structure Gas where
  limit : Nat
  used : Nat
  memory : Nat
  refunded : Int
deriving DecidableEq

/-- Source `Gas::new` in `machine.rs`. -/
def Gas.new (limit : Nat) : Gas :=
  { limit := limit, used := 0, memory := 0, refunded := 0 }

/-- Source `Gas::record_cost` in `machine.rs`:
`let all_used_gas = self.used + self.memory + cost;` (u64, wrapping),
`if self.limit < all_used_gas { return false; } self.used += cost; true`.
The mutated ledger is returned alongside the `bool`. -/
def Gas.record_cost (g : Gas) (cost : Nat) : Gas × Bool :=
  let all_used_gas := (g.used + g.memory + cost) % U64
  if g.limit < all_used_gas then (g, false)
  else ({ g with used := (g.used + cost) % U64 }, true)

/-- Source `Gas::erase_cost` in `machine.rs`: `self.used -= returned` (u64,
wrapping subtraction in release mode). -/
def Gas.erase_cost (g : Gas) (returned : Nat) : Gas :=
  { g with used := (g.used + U64 - returned % U64) % U64 }

/-- Source `Gas::record_refund` in `machine.rs`: `self.refunded += refund`
(i64, wrapping in release mode). -/
def Gas.record_refund (g : Gas) (refund : Int) : Gas :=
  { g with refunded := iwrap64 (g.refunded + refund) }

/-- Modelled from the spec: `contract.rs` is not under `src/`; §3 treats the
call context as opaque to this core beyond access to the code bytes, which
is all `machine.rs` reads (`self.contract.code.get(pc)`). -/
structure Contract where
  code : List Nat
deriving DecidableEq

/-- A `Range<U256>` (half-open), with `U256` values as `Nat`. -/
structure URange where
  start : Nat
  stop : Nat
deriving DecidableEq

/-- Source `Result<(), ExitReason>`, the type of `Machine::status` and of the value
returned by `Machine::step`. -/
inductive RunStatus
  | ok
  | error (r : ExitReason)
deriving DecidableEq

/-- The execution state (`struct Machine` in `machine.rs`). Memory and stack
are byte and word lists; the capacity arguments of `Memory::new(10000)` and
`Stack::new(10000)` bound resources not touched by any claim and are
elided. -/
structure Machine where
  contract : Contract
  program_counter : Nat
  return_range : URange
  memory : List Nat
  stack : List Nat
  status : RunStatus
  return_data_buffer : List Nat
  gas : Gas
deriving DecidableEq

/-- Source `Machine::new` in `machine.rs` (`Range::default()` is `0..0`). -/
def Machine.new (contract : Contract) (gas_limit : Nat) : Machine :=
  { contract := contract
    program_counter := 0
    return_range := { start := 0, stop := 0 }
    memory := []
    stack := []
    status := .ok
    return_data_buffer := []
    gas := Gas.new gas_limit }

/-- Modelled from the spec: `opcode.rs` is not under `src/`; §6 gives the
control outcomes of the handler `{Continue, ContinueN(u32), Jump(usize),
Exit(Reason)}`. -/
inductive Control
  | Continue
  | ContinueN (n : Nat)
  | Exit (r : ExitReason)
  | Jump (t : Nat)
deriving DecidableEq

/-- The external handler boundary (§6): the opcode dispatch function
`eval(state, opcode, program_counter, handler) -> Control`, modelled as a
pure function that also returns the mutated machine. `Machine::program_counter`
is a private field of the `machine` module, so `opcode::eval` cannot modify
it; `eval_pc` records that language-level guarantee. The tracing hook
`trace_opcode(opcode, &self)` takes the machine by shared reference and
cannot mutate it, so it is elided. -/
structure Handler where
  eval : Machine → Nat → Nat → Control × Machine
  eval_pc : ∀ m op pc, ((eval m op pc).2).program_counter = m.program_counter

/-- Opcode fetch and decode in `Machine::step`:
`self.contract.code.get(pc).map(|&b| OpCode::try_from_u8(b)).flatten()`.
`OpCode::try_from_u8` (in the out-of-scope opcode table) is abstracted by a
recognizer `valid` on the byte; a recognized opcode is identified with its
byte value. -/
def decodeOp (valid : Nat → Bool) (code : List Nat) (pc : Nat) : Option Nat :=
  (code[pc]?).bind fun b => if valid b then some b else none

/-- Source `Machine::step` in `machine.rs`, parameterized by the opcode recognizer
and the external handler. Returns the `Result<(), ExitReason>` together with
the mutated machine. -/
def Machine.step (m : Machine) (H : Handler) (valid : Nat → Bool) :
    RunStatus × Machine :=
  -- `let program_counter = self.program_counter;` saves the pre-step
  -- counter; the machine value `m` is immutable here, so `m.program_counter`
  -- below is always that saved value
  match decodeOp valid m.contract.code m.program_counter with
  | none =>
    -- no byte at the cursor, or the byte is not a recognized opcode
    (.error stopReason, { m with status := .error stopReason })
  | some opcode =>
    -- handler.trace_opcode(opcode, &self): observation only, elided
    match m.status with
    | .error reason => (.error reason, m)
    | .ok =>
      match H.eval m opcode m.program_counter with
      | (.Continue, me) =>
        (.ok, { me with program_counter := m.program_counter + 1 })
      | (.ContinueN p, me) =>
        (.ok, { me with program_counter := m.program_counter + p })
      | (.Exit e, me) => (.error e, { me with status := .error e })
      | (.Jump p, me) => (.ok, { me with program_counter := p })

/-- Source `Machine::run` in `machine.rs`: loop `step` until it yields `Err`;
fuelled to stay total. `none` means the fuel ran out before termination;
the terminal machine is returned alongside the reason. -/
def Machine.run (H : Handler) (valid : Nat → Bool) :
    Nat → Machine → Option (ExitReason × Machine)
  | 0, _ => none
  | fuel + 1, m =>
    match m.step H valid with
    | (.ok, m') => Machine.run H valid fuel m'
    | (.error r, m') => some (r, m')

/-- Source `Machine::gas_memory` in `machine.rs`:
`self.gas.memory = max(self.gas.memory, gas_memory)`. -/
def Machine.gas_memory (m : Machine) (gas_memory : Nat) : Machine :=
  { m with gas := { m.gas with memory := max m.gas.memory gas_memory } }

/-- Modelled from the spec: `memory.rs` is not under `src/`; §3 describes the
memory as a growable, zero-initialized byte buffer, and §8 requires
`Memory::get(offset, size)` to return the `size` bytes at `offset`,
zero-padded where the buffer is not allocated. -/
def Memory.get (mem : List Nat) (offset size : Nat) : List Nat :=
  (List.range size).map fun i => (mem[offset + i]?).getD 0

/-- Source `U256` subtraction; the `uint` crate panics on underflow (modelled as
`none`). -/
def usub (a b : Nat) : Option Nat := if b ≤ a then some (a - b) else none

/-- Source `U256::as_usize`; panics (modelled as `none`) when the value exceeds
`usize::MAX`. -/
def toUsize (x : Nat) : Option Nat := if x ≤ usizeMAX then some x else none

/-- The `while ret.len() < target { ret.push(0) }` padding loop of
`Machine::return_value`. -/
def padZeros (target : Nat) (xs : List Nat) : List Nat :=
  xs ++ List.replicate (target - xs.length) 0

/-- Source `Machine::return_value` in `machine.rs`, with the panicking `U256`
subtraction and `as_usize` conversions made explicit (`none` = panic). -/
def Machine.return_value (m : Machine) : Option (List Nat) :=
  if usizeMAX < m.return_range.start then
    (usub m.return_range.stop m.return_range.start).bind fun d =>
      (toUsize d).map fun len => List.replicate len 0
  else if usizeMAX < m.return_range.stop then
    (usub m.return_range.stop m.return_range.start).bind fun d =>
      (toUsize d).map fun len =>
        padZeros len (Memory.get m.memory m.return_range.start
          (usizeMAX - m.return_range.start))
  else
    (usub m.return_range.stop m.return_range.start).bind fun d =>
      (toUsize d).map fun len => Memory.get m.memory m.return_range.start len

/-- Modelled from the spec: the `bytecode` crate is not under `src/`; §3
gives one `TypesSection` per structured code section: input stack-item
count, output stack-item count, maximum stack height. -/
structure TypesSection where
  inputs : Nat
  outputs : Nat
  max_stack_size : Nat
deriving DecidableEq

/-- Modelled from the spec: the structured-format header (§3), of which the
code under `src/` reads only `data_size`. -/
structure EofHeader where
  data_size : Nat
deriving DecidableEq

/-- Modelled from the spec: the structured-format body (§3): typed code
sections, code-section start offsets, data section, nested sub-containers. -/
structure EofBody where
  types_section : List TypesSection
  code_section_starts : List Nat
  code : List Nat
  data_section : List Nat
  container_section : List (List Nat)
deriving DecidableEq

/-- Modelled from the spec: a parsed structured (EOF) container (§3). -/
structure Eof where
  header : EofHeader
  body : EofBody
deriving DecidableEq

/-- Source `Eof::body::eof_code_section_start(idx)`: the absolute byte offset of
code section `idx`, `None` when there is no such section (spec §4.2
`code_section_start(index) -> Option<usize>`). -/
def EofBody.eof_code_section_start (b : EofBody) (idx : Nat) : Option Nat :=
  b.code_section_starts[idx]?

/-- Source `Eof::data()`: the data section bytes. -/
def Eof.data (e : Eof) : List Nat := e.body.data_section

/-- Source `Eof::data_slice(offset, len)`: spec §4.2 says it panics/fails when out
of range of the fixed-size data section (`none` = panic). -/
def Eof.data_slice (e : Eof) (offset len : Nat) : Option (List Nat) :=
  if offset + len ≤ e.body.data_section.length then
    some ((e.body.data_section.drop offset).take len)
  else none

/-- Modelled from the spec: the bytecode container (§3), a tagged variant
over the legacy flat format (code bytes plus the precomputed valid-jump
table) and the structured (EOF) format. -/
inductive Bytecode
  | Legacy (code : List Nat) (jump_table : List Bool)
  | Structured (e : Eof)
deriving DecidableEq

/-- Source `Bytecode::bytecode()`: the raw code-byte buffer of the container. -/
def Bytecode.bytecode : Bytecode → List Nat
  | .Legacy code _ => code
  | .Structured e => e.body.code

/-- Source `Bytecode::eof()`: `Some` exactly on a structured container. -/
def Bytecode.eof : Bytecode → Option Eof
  | .Legacy _ _ => none
  | .Structured e => some e

/-- The execution cursor (`struct ExtBytecode` in `ext_bytecode.rs`). The
raw `instruction_pointer` is reimplemented as the byte offset from the start
of the bytecode buffer (spec §9: pointer becomes bounds-checked index);
`pc()` computes exactly this offset via `offset_from`. -/
structure ExtBytecode where
  base : Bytecode
  instruction_pointer : Nat
deriving DecidableEq

/-- Source `ExtBytecode::new`: the instruction pointer is set to the start of the
bytecode (`base.bytecode().as_ptr()`, offset `0`). -/
def ExtBytecode.new (base : Bytecode) : ExtBytecode :=
  { base := base, instruction_pointer := 0 }

/-- Source `Jumps::pc` for `ExtBytecode`: `instruction_pointer.offset_from(start)`,
i.e. the stored offset. -/
def ExtBytecode.pc (eb : ExtBytecode) : Nat := eb.instruction_pointer

/-- Source `Jumps::absolute_jump` for `ExtBytecode`:
`instruction_pointer = base.bytecode().as_ptr().add(offset)`. -/
def ExtBytecode.absolute_jump (eb : ExtBytecode) (offset : Nat) : ExtBytecode :=
  { eb with instruction_pointer := offset }

/-- Source `Jumps::opcode` for `ExtBytecode`: `*instruction_pointer`; the unchecked
read is modelled as a checked one, `none` standing for the out-of-bounds
case that the external invariant rules out. -/
def ExtBytecode.opcode (eb : ExtBytecode) : Option Nat :=
  eb.base.bytecode[eb.instruction_pointer]?

/-- Source `Immediates::read_slice` for `ExtBytecode`:
`slice::from_raw_parts(instruction_pointer, len)`, modelled as a checked
slice read (`none` = out of bounds). -/
def ExtBytecode.read_slice (eb : ExtBytecode) (len : Nat) : Option (List Nat) :=
  if eb.instruction_pointer + len ≤ eb.base.bytecode.length then
    some ((eb.base.bytecode.drop eb.instruction_pointer).take len)
  else none

/-- Source `EofCodeInfo::code_section_info` for `ExtBytecode`:
`base.eof().and_then(|eof| eof.body.types_section.get(idx))`. -/
def ExtBytecode.code_section_info (eb : ExtBytecode) (idx : Nat) :
    Option TypesSection :=
  eb.base.eof.bind fun e => e.body.types_section[idx]?

/-- Source `EofCodeInfo::code_section_pc` for `ExtBytecode`:
`base.eof().and_then(|eof| eof.body.eof_code_section_start(idx))`. -/
def ExtBytecode.code_section_pc (eb : ExtBytecode) (idx : Nat) : Option Nat :=
  eb.base.eof.bind fun e => e.body.eof_code_section_start idx

/-- Source `EofContainer::eof_container` for `ExtBytecode`:
`base.eof().and_then(|eof| eof.body.container_section.get(index))`. -/
def ExtBytecode.eof_container (eb : ExtBytecode) (index : Nat) :
    Option (List Nat) :=
  eb.base.eof.bind fun e => e.body.container_section[index]?

/-- Source `EofData::data` for `ExtBytecode`: `base.eof().expect("eof").data()`;
the `expect` panic on a legacy container is modelled as `none`. -/
def ExtBytecode.data (eb : ExtBytecode) : Option (List Nat) :=
  eb.base.eof.map Eof.data

/-- Source `EofData::data_slice` for `ExtBytecode`:
`base.eof().expect("eof").data_slice(offset, len)`; `none` models either
the `expect` panic (legacy container) or an out-of-range slice. -/
def ExtBytecode.data_slice (eb : ExtBytecode) (offset len : Nat) :
    Option (List Nat) :=
  eb.base.eof.bind fun e => e.data_slice offset len

/-- Source `EofData::data_size` for `ExtBytecode`:
`base.eof().expect("eof").header.data_size`; `none` models the `expect`
panic on a legacy container. -/
def ExtBytecode.data_size (eb : ExtBytecode) : Option Nat :=
  eb.base.eof.map fun e => e.header.data_size

/-- The §5 environmental assumption on the handler boundary: the bytecode
container is immutable for the duration of a run ("it must simply never be
mutated post-construction"), so an opcode handler never changes the
code bytes of the machine. -/
def preservesCode (H : Handler) : Prop :=
  ∀ m op pc, ((H.eval m op pc).2).contract.code = m.contract.code

/-- Predicate: `step` on `m` re-reports the reason `r` and leaves the machine
unchanged, whatever handler is supplied — in particular no opcode handler
is dispatched, since the outcome does not depend on one. -/
def reportsOnly (valid : Nat → Bool) (m : Machine) (r : ExitReason) : Prop :=
  ∀ H : Handler, m.step H valid = (.error r, m)

/-- The outcome of `step` on `m` is the same for every handler: no opcode
handler is invoked. -/
def stepIndep (valid : Nat → Bool) (m : Machine) : Prop :=
  ∀ H1 H2 : Handler, m.step H1 valid = m.step H2 valid

/-- A finite sequence of successive `record_cost` calls; returns the final
ledger and whether every call returned `true`. -/
def recordSeq : Gas → List Nat → Gas × Bool
  | g, [] => (g, true)
  | g, c :: cs =>
    let p := g.record_cost c
    let q := recordSeq p.1 cs
    (q.1, p.2 && q.2)

/-- Every prefix sum of the cost sequence stays within the limit `L`. -/
def prefixWithin (L : Nat) (cs : List Nat) : Prop :=
  ∀ i, i ≤ cs.length → (cs.take i).sum ≤ L

/-- The cursor update demanded of each non-terminal control outcome:
`Continue` advances by one byte, `ContinueN n` by `n` bytes, `Jump t` sets
the counter to `t`; `Exit` has no cursor update. -/
def controlTarget (c : Control) (pc : Nat) : Option Nat :=
  match c with
  | .Continue => some (pc + 1)
  | .ContinueN n => some (pc + n)
  | .Jump t => some t
  | .Exit _ => none

/-- Claim C7 (confirmed): the memory-cost update sets the memory
counter of the ledger to `max(current memory, new_cost)`; the counter is monotonically
non-decreasing across any sequence of updates; and an update with a value
at most the current counter leaves the whole machine — in particular every
ledger field — unchanged. -/
theorem gas_memory_spec (m : Machine) (v : Nat) (vs : List Nat) :
    (m.gas_memory v).gas.memory = max m.gas.memory v ∧
    m.gas.memory ≤ (m.gas_memory v).gas.memory ∧
    m.gas.memory ≤ (vs.foldl Machine.gas_memory m).gas.memory ∧
    (v ≤ m.gas.memory → m.gas_memory v = m) := by
  refine ⟨rfl, Nat.le_max_left _ _, ?_, ?_⟩
  · induction vs generalizing m with
    | nil => simp
    | cons a as ih =>
      simp only [List.foldl_cons]
      exact le_trans (Nat.le_max_left _ _) (ih (m.gas_memory a))
  · intro h
    simp [Machine.gas_memory, Nat.max_eq_left h]

/-- Witness for C7 at a concrete machine, update value and update
sequence. -/
theorem gas_memory_spec_witness :
    (Machine.new ⟨[]⟩ 100).gas_memory 0 = Machine.new ⟨[]⟩ 100 ∧
    (Machine.new ⟨[]⟩ 100).gas.memory ≤
      ([3, 9].foldl Machine.gas_memory (Machine.new ⟨[]⟩ 100)).gas.memory :=
  ⟨(gas_memory_spec (Machine.new ⟨[]⟩ 100) 0 [3, 9]).2.2.2 (by decide),
   (gas_memory_spec (Machine.new ⟨[]⟩ 100) 0 [3, 9]).2.2.1⟩

/-- Claim C8 (confirmed): after `absolute_jump t` to an in-bounds offset,
`pc()` is exactly `t`, `opcode()` is exactly the byte at offset `t` of the
underlying buffer, `read_slice len` is exactly the bytes at `[t, t+len)`
when in bounds, and a freshly constructed cursor starts at offset `0`. -/
theorem absolute_jump_reads (eb : ExtBytecode) (t len : Nat)
    (h1 : t < eb.base.bytecode.length)
    (h2 : t + len ≤ eb.base.bytecode.length) :
    (eb.absolute_jump t).pc = t ∧
    (eb.absolute_jump t).opcode = some (eb.base.bytecode[t]) ∧
    (eb.absolute_jump t).read_slice len =
      some ((eb.base.bytecode.drop t).take len) ∧
    (ExtBytecode.new eb.base).pc = 0 := by
  refine ⟨rfl, ?_, ?_, rfl⟩
  · simp [ExtBytecode.opcode, ExtBytecode.absolute_jump,
      List.getElem?_eq_getElem h1]
  · simp [ExtBytecode.read_slice, ExtBytecode.absolute_jump, h2]

/-- Witness for C8 on a concrete legacy buffer `[10, 20, 30]`, jumping to
offset `1` and reading two bytes. -/
theorem absolute_jump_reads_witness :
    ((ExtBytecode.mk (.Legacy [10, 20, 30] []) 0).absolute_jump 1).pc = 1 ∧
    ((ExtBytecode.mk (.Legacy [10, 20, 30] []) 0).absolute_jump 1).opcode
      = some 20 ∧
    ((ExtBytecode.mk (.Legacy [10, 20, 30] []) 0).absolute_jump 1).read_slice 2
      = some [20, 30] ∧
    (ExtBytecode.new (.Legacy [10, 20, 30] [])).pc = 0 := by
  have h := absolute_jump_reads (ExtBytecode.mk (.Legacy [10, 20, 30] []) 0)
    1 2 (by decide) (by decide)
  exact ⟨h.1, h.2.1.trans (by decide), h.2.2.1.trans (by decide), h.2.2.2⟩

/-- Claim C10 (confirmed): on a legacy (non-structured) container the
structured-format accessors `code_section_info`, `code_section_pc` and
`eof_container` are total and return `none` at every index, while `data`,
`data_slice` and `data_size` fail (the `expect("eof")` panic, modelled as
`none`). -/
theorem legacy_eof_accessors (eb : ExtBytecode) (code : List Nat)
    (jt : List Bool) (idx off len : Nat)
    (hbase : eb.base = .Legacy code jt) :
    eb.code_section_info idx = none ∧
    eb.code_section_pc idx = none ∧
    eb.eof_container idx = none ∧
    eb.data = none ∧
    eb.data_slice off len = none ∧
    eb.data_size = none := by
  simp [ExtBytecode.code_section_info, ExtBytecode.code_section_pc,
    ExtBytecode.eof_container, ExtBytecode.data, ExtBytecode.data_slice,
    ExtBytecode.data_size, hbase, Bytecode.eof]

/-- Witness for C10 on a concrete legacy container. -/
theorem legacy_eof_accessors_witness :
    (ExtBytecode.mk (.Legacy [91, 0] [false, false]) 0).code_section_info 0
      = none ∧
    (ExtBytecode.mk (.Legacy [91, 0] [false, false]) 0).code_section_pc 0
      = none ∧
    (ExtBytecode.mk (.Legacy [91, 0] [false, false]) 0).eof_container 0
      = none ∧
    (ExtBytecode.mk (.Legacy [91, 0] [false, false]) 0).data = none ∧
    (ExtBytecode.mk (.Legacy [91, 0] [false, false]) 0).data_slice 0 1
      = none ∧
    (ExtBytecode.mk (.Legacy [91, 0] [false, false]) 0).data_size = none :=
  legacy_eof_accessors (ExtBytecode.mk (.Legacy [91, 0] [false, false]) 0)
    [91, 0] [false, false] 0 0 1 rfl

/-- Claim C1 counterexample: at the ledger reached from
`Gas::new(u64::MAX)` by a successful `record_cost(u64::MAX)` (so
`used = 2^64 - 1`), a further `record_cost(1)` has
`used + memory + 1 = 2^64 > limit`, so the claim demands `false` with the
ledger unchanged; the `u64` sum in the code wraps to `0`, the limit check
passes, and the call returns `true` with `used` wrapped to `0`. -/
theorem record_cost_overflow_cex :
    Gas.record_cost (Gas.new (U64 - 1)) (U64 - 1)
      = (⟨U64 - 1, U64 - 1, 0, 0⟩, true) ∧
    Gas.record_cost ⟨U64 - 1, U64 - 1, 0, 0⟩ 1
      = (⟨U64 - 1, 0, 0, 0⟩, true) ∧
    (⟨U64 - 1, U64 - 1, 0, 0⟩ : Gas).limit
      < (⟨U64 - 1, U64 - 1, 0, 0⟩ : Gas).used
        + (⟨U64 - 1, U64 - 1, 0, 0⟩ : Gas).memory + 1 := by
  refine ⟨by decide, by decide, by decide⟩

/-- Claim C1 (amended): provided the `u64` sum `used + memory + cost` does
not overflow (is below `2^64`), `record_cost` returns `true` and adds
exactly `cost` to `used` when `used + memory + cost ≤ limit`, returns
`false` with all four fields unchanged otherwise, and after every
successful call `used + memory ≤ limit` holds. -/
theorem record_cost_spec (g : Gas) (c : Nat)
    (hov : g.used + g.memory + c < U64) :
    (g.used + g.memory + c ≤ g.limit →
      g.record_cost c = ({ g with used := g.used + c }, true)) ∧
    (g.limit < g.used + g.memory + c →
      g.record_cost c = (g, false)) ∧
    (g.used + g.memory + c ≤ g.limit →
      (g.record_cost c).1.used + (g.record_cost c).1.memory ≤ g.limit) := by
  have h1 : (g.used + g.memory + c) % U64 = g.used + g.memory + c :=
    Nat.mod_eq_of_lt hov
  have h2 : (g.used + c) % U64 = g.used + c := Nat.mod_eq_of_lt (by omega)
  simp only [Gas.record_cost, h1, h2]
  refine ⟨fun h => ?_, fun h => ?_, fun h => ?_⟩
  · rw [if_neg (by omega)]
  · rw [if_pos h]
  · rw [if_neg (by omega)]
    dsimp only
    omega

/-- Witness for C1 (amended) on a fresh ledger with limit `10` and cost
`4`. -/
theorem record_cost_spec_witness :
    Gas.record_cost (Gas.new 10) 4 = (⟨10, 4, 0, 0⟩, true) ∧
    (Gas.record_cost (Gas.new 10) 4).1.used
      + (Gas.record_cost (Gas.new 10) 4).1.memory ≤ 10 :=
  ⟨((record_cost_spec (Gas.new 10) 4 (by decide)).1 (by decide)).trans
      (by decide),
   (record_cost_spec (Gas.new 10) 4 (by decide)).2.2 (by decide)⟩

/-- Claim C9 counterexample: at the ledger reached from `Gas::new 0` by
`record_refund(i64::MAX)` (so `refunded = 2^63 - 1`), a further
`record_refund(1)` must add `1` per the claim; the `i64` addition in the code
wraps to `-2^63`. -/
theorem record_refund_overflow_cex :
    Gas.record_refund (Gas.new 0) (2 ^ 63 - 1) = ⟨0, 0, 0, 2 ^ 63 - 1⟩ ∧
    (Gas.record_refund ⟨0, 0, 0, 2 ^ 63 - 1⟩ 1).refunded = -(2 ^ 63) ∧
    ((2 : Int) ^ 63 - 1) + 1 ≠ -(2 ^ 63) := by
  refine ⟨by decide, by decide, by decide⟩

/-- Claim C9 (amended): for every `u64`-valued ledger with
`returned ≤ used`, `erase_cost(returned)` decreases `used` by exactly
`returned` and leaves `limit`, `memory` and `refunded` unchanged; and
`record_refund(delta)` changes only `refunded`, adding `delta` (which may
be negative) provided the `i64` result does not overflow. -/
theorem erase_cost_record_refund_spec (g : Gas) (returned : Nat) (d : Int)
    (hused : g.used < U64) (hret : returned ≤ g.used)
    (hlo : -(2 ^ 63) ≤ g.refunded + d) (hhi : g.refunded + d < 2 ^ 63) :
    g.erase_cost returned = { g with used := g.used - returned } ∧
    g.record_refund d = { g with refunded := g.refunded + d } := by
  constructor
  · unfold Gas.erase_cost
    congr 1
    have h1 : returned % U64 = returned :=
      Nat.mod_eq_of_lt (lt_of_le_of_lt hret hused)
    rw [h1]
    have h2 : g.used + U64 - returned = g.used - returned + U64 := by omega
    rw [h2, Nat.add_mod_right, Nat.mod_eq_of_lt (by omega)]
  · unfold Gas.record_refund iwrap64
    congr 1
    have h3 : (g.refunded + d + 2 ^ 63) % 2 ^ 64 = g.refunded + d + 2 ^ 63 :=
      Int.emod_eq_of_lt (by omega) (by omega)
    rw [h3]
    omega

/-- Witness for C9 (amended): erase `4` out of `used = 5` and apply a
negative refund delta. -/
theorem erase_cost_record_refund_spec_witness :
    Gas.erase_cost ⟨10, 5, 2, 3⟩ 4 = ⟨10, 1, 2, 3⟩ ∧
    Gas.record_refund ⟨10, 5, 2, 3⟩ (-7) = ⟨10, 5, 2, -4⟩ :=
  ⟨(erase_cost_record_refund_spec ⟨10, 5, 2, 3⟩ 4 (-7) (by decide)
      (by decide) (by decide) (by decide)).1.trans (by decide),
   (erase_cost_record_refund_spec ⟨10, 5, 2, 3⟩ 4 (-7) (by decide)
      (by decide) (by decide) (by decide)).2.trans (by decide)⟩

/-- Generalized invariant for a `record_cost` sequence starting from an
arbitrary ledger, assuming the mathematical total never reaches `2^64`
(so no `u64` wrap occurs): all calls succeed exactly when every nonempty
prefix keeps `used + memory + charged` within the limit, and on success
`used` grows by exactly the total cost. -/
theorem recordSeq_general (cs : List Nat) (g : Gas)
    (hov : g.used + g.memory + cs.sum < U64) :
    ((recordSeq g cs).2 = true ↔
      ∀ i, 1 ≤ i → i ≤ cs.length →
        g.used + g.memory + (cs.take i).sum ≤ g.limit) ∧
    ((recordSeq g cs).2 = true →
      (recordSeq g cs).1 = { g with used := g.used + cs.sum }) := by
  induction cs generalizing g with
  | nil =>
    refine ⟨⟨fun _ i h1 h2 => ?_, fun _ => rfl⟩, fun _ => ?_⟩
    · simp at h2; omega
    · simp [recordSeq]
  | cons c cs ih =>
    have hsum : g.used + g.memory + (c + cs.sum) < U64 := by
      simpa [List.sum_cons] using hov
    have hmod1 : (g.used + g.memory + c) % U64 = g.used + g.memory + c :=
      Nat.mod_eq_of_lt (by omega)
    have hmod2 : (g.used + c) % U64 = g.used + c :=
      Nat.mod_eq_of_lt (by omega)
    by_cases hl : g.limit < g.used + g.memory + c
    · -- the head call already fails
      have hrec : g.record_cost c = (g, false) := by
        simp only [Gas.record_cost, hmod1]
        rw [if_pos hl]
      have hflag : (recordSeq g (c :: cs)).2 = false := by
        simp only [recordSeq, hrec, Bool.false_and]
      constructor
      · rw [hflag]
        constructor
        · intro h; cases h
        · intro hall
          have h1 := hall 1 (by omega) (by simp)
          simp [List.take_succ_cons] at h1
          omega
      · intro h; rw [hflag] at h; cases h
    · -- the head call succeeds and charges c
      have hrec : g.record_cost c = ({ g with used := g.used + c }, true) := by
        simp only [Gas.record_cost, hmod1, hmod2]
        rw [if_neg hl]
      have hstep : recordSeq g (c :: cs)
          = ((recordSeq { g with used := g.used + c } cs).1,
             (recordSeq { g with used := g.used + c } cs).2) := by
        simp only [recordSeq, hrec, Bool.true_and]
      have ihg := ih { g with used := g.used + c } (by dsimp only; omega)
      constructor
      · rw [hstep]
        dsimp only
        rw [ihg.1]
        constructor
        · intro hall i h1 h2
          match i, h1 with
          | 1, _ =>
            simp [List.take_succ_cons]
            omega
          | j + 2, _ =>
            rw [List.take_succ_cons, List.sum_cons]
            have := hall (j + 1) (by omega) (by simpa using h2)
            dsimp only at this
            omega
        · intro hall j h1 h2
          have := hall (j + 1) (by omega) (by simp; omega)
          rw [List.take_succ_cons, List.sum_cons] at this
          dsimp only
          omega
      · intro hflag
        rw [hstep] at hflag ⊢
        dsimp only at hflag ⊢
        rw [ihg.2 hflag]
        dsimp only
        rw [List.sum_cons]
        congr 1
        omega

/-- Claim C6 counterexample: with limit `u64::MAX` and costs
`[u64::MAX, 1]`, the second prefix sum `2^64` exceeds the limit, so per the
claim not every call may succeed; yet both calls succeed (the `u64` check
wraps) and the final `used` is `0`, not the cost sum. -/
theorem recordSeq_overflow_cex :
    (recordSeq (Gas.new (U64 - 1)) [U64 - 1, 1]).2 = true ∧
    ¬ prefixWithin (U64 - 1) [U64 - 1, 1] ∧
    (recordSeq (Gas.new (U64 - 1)) [U64 - 1, 1]).1.used
      ≠ ([U64 - 1, 1] : List Nat).sum := by
  refine ⟨by decide, fun h => ?_, by decide⟩
  exact absurd (h 2 (by decide)) (by decide)

/-- Claim C6 (amended): for every limit `L` and cost sequence whose total
stays below `2^64` (no `u64` overflow), all `record_cost` calls on a fresh
ledger succeed iff every prefix sum of costs (plus the memory high-water
mark, which is `0` on a fresh ledger) stays within `L`, and after an
all-successful sequence `used` equals exactly the sum of the costs. -/
theorem record_cost_sequence (L : Nat) (cs : List Nat)
    (hov : cs.sum < U64) :
    ((recordSeq (Gas.new L) cs).2 = true ↔ prefixWithin L cs) ∧
    ((recordSeq (Gas.new L) cs).2 = true →
      (recordSeq (Gas.new L) cs).1.used = cs.sum) := by
  have h := recordSeq_general cs (Gas.new L) (by simpa [Gas.new] using hov)
  constructor
  · rw [h.1]
    unfold prefixWithin
    constructor
    · intro hall i hi
      rcases Nat.eq_zero_or_pos i with h0 | h1
      · subst h0; simp
      · simpa [Gas.new] using hall i h1 hi
    · intro hall i h1 hi
      simpa [Gas.new] using hall i hi
  · intro ht
    rw [h.2 ht]
    simp [Gas.new]

/-- Witness for C6 (amended) at limit `10` and costs `[3, 4]`. -/
theorem record_cost_sequence_witness :
    ((recordSeq (Gas.new 10) [3, 4]).2 = true ↔ prefixWithin 10 [3, 4]) ∧
    ((recordSeq (Gas.new 10) [3, 4]).2 = true →
      (recordSeq (Gas.new 10) [3, 4]).1.used = ([3, 4] : List Nat).sum) :=
  record_cost_sequence 10 [3, 4] (by decide)

/-- A step that returns `Err r` leaves `status = Err r` and puts the
machine into a state from which every further `step`, with any handler,
re-reports exactly `r` without mutating anything (so without dispatching).
Needs the §5 container-immutability assumption `preservesCode`. -/
theorem step_error_sticky (H : Handler) (valid : Nat → Bool) (m : Machine)
    (r : ExitReason) (m1 : Machine) (hcode : preservesCode H)
    (h : m.step H valid = (.error r, m1)) :
    m1.status = .error r ∧ reportsOnly valid m1 r := by
  cases hdec : decodeOp valid m.contract.code m.program_counter with
  | none =>
    simp only [Machine.step, hdec] at h
    injection h with h1 h2
    injection h1 with h1
    subst h1
    subst h2
    refine ⟨rfl, fun H1 => ?_⟩
    simp [Machine.step, hdec]
  | some op =>
    simp only [Machine.step, hdec] at h
    cases hst : m.status with
    | error r0 =>
      simp only [hst] at h
      injection h with h1 h2
      injection h1 with h1
      subst h1
      subst h2
      refine ⟨hst, fun H1 => ?_⟩
      simp [Machine.step, hdec, hst]
    | ok =>
      simp only [hst] at h
      cases heval : H.eval m op m.program_counter with
      | mk c me =>
        simp only [heval] at h
        cases c with
        | Continue => injection h with h1 h2; cases h1
        | ContinueN n => injection h with h1 h2; cases h1
        | Jump t => injection h with h1 h2; cases h1
        | Exit e =>
          injection h with h1 h2
          injection h1 with h1
          subst h1
          subst h2
          refine ⟨rfl, fun H1 => ?_⟩
          have hc : me.contract.code = m.contract.code := by
            have hx := hcode m op m.program_counter
            rw [heval] at hx
            exact hx
          have hp : me.program_counter = m.program_counter := by
            have hx := H.eval_pc m op m.program_counter
            rw [heval] at hx
            exact hx
          have hd2 : ∀ s : RunStatus, decodeOp valid
              ({ me with status := s } : Machine).contract.code
              ({ me with status := s } : Machine).program_counter
              = some op := by
            intro s
            show decodeOp valid me.contract.code me.program_counter = some op
            rw [hc, hp]
            exact hdec
          simp [Machine.step, hd2]

/-- Claim C2 (confirmed): whenever `run` terminates, the
sticky status of the terminal machine holds exactly the single reported reason, and every
subsequent `step` — with any handler — returns `Err` with that same reason
and the machine unchanged, without dispatching an opcode handler.
Hypothesis `preservesCode H` is the §5 assumption that the bytecode
container is never mutated during a run; that the handler cannot move the
program counter is a Rust privacy guarantee carried by `Handler.eval_pc`. -/
theorem run_status_sticky (H : Handler) (valid : Nat → Bool)
    (fuel : Nat) (m : Machine) (r : ExitReason) (m1 : Machine)
    (hcode : preservesCode H)
    (hrun : Machine.run H valid fuel m = some (r, m1)) :
    m1.status = .error r ∧ reportsOnly valid m1 r := by
  induction fuel generalizing m with
  | zero => simp [Machine.run] at hrun
  | succ fuel ih =>
    unfold Machine.run at hrun
    cases hstep : m.step H valid with
    | mk st m2 =>
      rw [hstep] at hrun
      cases st with
      | ok => exact ih m2 hrun
      | error r0 =>
        injection hrun with h1
        injection h1 with ha hb
        subst ha
        subst hb
        exact step_error_sticky H valid m _ _ hcode hstep

/-- Witness for C2: a handler whose single dispatch exits with `OutOfGas`
on the one-opcode program `[0]`; `run` reports `OutOfGas` and the terminal
machine permanently re-reports it. -/
theorem run_status_sticky_witness :
    (Machine.mk ⟨[0]⟩ 0 ⟨0, 0⟩ [] [] (.error (.Error .OutOfGas)) []
        (Gas.new 5)).status = .error (.Error .OutOfGas) ∧
    reportsOnly (fun _ => true)
      (Machine.mk ⟨[0]⟩ 0 ⟨0, 0⟩ [] [] (.error (.Error .OutOfGas)) []
        (Gas.new 5)) (.Error .OutOfGas) :=
  run_status_sticky
    ⟨fun m _ _ => (.Exit (.Error .OutOfGas), m), fun _ _ _ => rfl⟩
    (fun _ => true) 1
    (Machine.mk ⟨[0]⟩ 0 ⟨0, 0⟩ [] [] .ok [] (Gas.new 5))
    (.Error .OutOfGas)
    (Machine.mk ⟨[0]⟩ 0 ⟨0, 0⟩ [] [] (.error (.Error .OutOfGas)) []
      (Gas.new 5))
    (fun _ _ _ => rfl) (by decide)

/-- Claim C3 (confirmed): when the program counter is at or past the end of
the code (in particular on an empty buffer) or the current byte is not a
recognized opcode, `step` sets `status = Err(Stopped)` — the successful
implicit-STOP reason — returns it, and invokes no opcode handler (the
outcome is the same for every handler). -/
theorem step_implicit_stop (H : Handler) (valid : Nat → Bool) (m : Machine)
    (h : m.contract.code.length ≤ m.program_counter ∨
      ∃ b, m.contract.code[m.program_counter]? = some b ∧ valid b = false) :
    m.step H valid
      = (.error stopReason, { m with status := .error stopReason }) ∧
    stepIndep valid m := by
  have hdec : decodeOp valid m.contract.code m.program_counter = none := by
    unfold decodeOp
    rcases h with h | ⟨b, hb, hv⟩
    · rw [List.getElem?_eq_none h]
      rfl
    · rw [hb]
      simp [hv]
  exact ⟨by simp [Machine.step, hdec],
    fun H1 H2 => by simp [Machine.step, hdec]⟩

/-- Witness for C3: a fresh machine on the empty code buffer stops
implicitly at step zero. -/
theorem step_implicit_stop_witness :
    (Machine.new ⟨[]⟩ 7).step
        ⟨fun m _ _ => (.Continue, m), fun _ _ _ => rfl⟩ (fun _ => true)
      = (.error stopReason,
         { Machine.new ⟨[]⟩ 7 with status := .error stopReason }) ∧
    stepIndep (fun _ => true) (Machine.new ⟨[]⟩ 7) :=
  step_implicit_stop ⟨fun m _ _ => (.Continue, m), fun _ _ _ => rfl⟩
    (fun _ => true) (Machine.new ⟨[]⟩ 7) (.inl (by decide))

/-- Claim C4 (confirmed): when a step dispatches a handler that reports a
non-terminal control outcome, the step returns `Ok`, the resulting program
counter is exactly the pre-step counter plus `1` for `Continue`, plus `n`
for `ContinueN n`, and exactly `target` for `Jump target`, and the status
stays `Ok` (the hypothesis `hstat` records that the dispatched handler, as
expected of handlers signalling continuation, did not itself write the
public status field). -/
theorem step_applies_control (H : Handler) (valid : Nat → Bool)
    (m : Machine) (op : Nat) (c : Control) (me : Machine) (t : Nat)
    (hdec : decodeOp valid m.contract.code m.program_counter = some op)
    (hok : m.status = .ok)
    (heval : H.eval m op m.program_counter = (c, me))
    (ht : controlTarget c m.program_counter = some t)
    (hstat : me.status = .ok) :
    m.step H valid = (.ok, { me with program_counter := t }) ∧
    ({ me with program_counter := t } : Machine).status = .ok := by
  refine ⟨?_, hstat⟩
  cases c with
  | Continue =>
    simp only [controlTarget, Option.some.injEq] at ht
    subst ht
    simp [Machine.step, hdec, hok, heval]
  | ContinueN n =>
    simp only [controlTarget, Option.some.injEq] at ht
    subst ht
    simp [Machine.step, hdec, hok, heval]
  | Jump p =>
    simp only [controlTarget, Option.some.injEq] at ht
    subst ht
    simp [Machine.step, hdec, hok, heval]
  | Exit e => cases ht

/-- Witness for C4: a handler returning `Continue` on the one-opcode
program `[0]` advances the counter from `0` to exactly `1`. -/
theorem step_applies_control_witness :
    (Machine.new ⟨[0]⟩ 9).step
        ⟨fun m _ _ => (.Continue, m), fun _ _ _ => rfl⟩ (fun _ => true)
      = (.ok, { Machine.new ⟨[0]⟩ 9 with program_counter := 1 }) ∧
    ({ Machine.new ⟨[0]⟩ 9 with program_counter := 1 } : Machine).status
      = .ok :=
  step_applies_control
    ⟨fun m _ _ => (.Continue, m), fun _ _ _ => rfl⟩ (fun _ => true)
    (Machine.new ⟨[0]⟩ 9) 0 .Continue (Machine.new ⟨[0]⟩ 9) 1
    rfl rfl rfl rfl rfl

/-- When the requested window lies inside the allocated memory,
`Memory.get` is the exact slice. -/
theorem Memory.get_eq_drop_take (mem : List Nat) (s n : Nat)
    (h : s + n ≤ mem.length) :
    Memory.get mem s n = (mem.drop s).take n := by
  apply List.ext_getElem
  · simp [Memory.get]
    omega
  · intro i h1 h2
    have hi : i < n := by simp [Memory.get] at h1; omega
    have hsi : s + i < mem.length := by omega
    simp [Memory.get, List.getElem?_eq_getElem hsi]

/-- Claim C5 counterexample: the empty-by-inversion range `1..0` has both
ends within the addressable domain, so per the claim `return_value` falls
in the third case and returns the bytes of `[1, 0)`; instead the `U256`
subtraction `end - start` underflows and the code panics (modelled as
`none`). -/
theorem return_value_underflow_cex :
    ({ Machine.new ⟨[]⟩ 0 with
        return_range := ⟨1, 0⟩ } : Machine).return_value = none ∧
    ({ Machine.new ⟨[]⟩ 0 with
        return_range := ⟨1, 0⟩ } : Machine).return_range.start ≤ usizeMAX ∧
    ({ Machine.new ⟨[]⟩ 0 with
        return_range := ⟨1, 0⟩ } : Machine).return_range.stop ≤ usizeMAX := by
  refine ⟨by decide, by decide, by decide⟩

/-- Claim C5 (amended): for every well-ordered return range
(`start ≤ end`) whose length fits in `usize`, `return_value` does not
panic and satisfies the three cases exactly: all zeros of length
`end − start` when `start` exceeds `usize::MAX`; the memory bytes from
`start` up to `usize::MAX` right-padded with zeros to length `end − start`
when only `end` exceeds it; and the memory window `[start, end)` (the
exact slice when the window is allocated) otherwise. For `end < start` or
a length above `usize::MAX` the code panics (`U256` underflow or
`as_usize` overflow) rather than returning a buffer. -/
theorem return_value_cases (m : Machine)
    (hle : m.return_range.start ≤ m.return_range.stop)
    (hfit : m.return_range.stop - m.return_range.start ≤ usizeMAX) :
    (m.return_value).isSome = true ∧
    (usizeMAX < m.return_range.start →
      m.return_value = some (List.replicate
        (m.return_range.stop - m.return_range.start) 0)) ∧
    (m.return_range.start ≤ usizeMAX → usizeMAX < m.return_range.stop →
      m.return_value = some (padZeros
        (m.return_range.stop - m.return_range.start)
        (Memory.get m.memory m.return_range.start
          (usizeMAX - m.return_range.start)))) ∧
    (m.return_range.stop ≤ usizeMAX →
      m.return_value = some (Memory.get m.memory m.return_range.start
        (m.return_range.stop - m.return_range.start))) ∧
    (m.return_range.stop ≤ usizeMAX →
      m.return_range.stop ≤ m.memory.length →
      m.return_value = some ((m.memory.drop m.return_range.start).take
        (m.return_range.stop - m.return_range.start))) := by
  have hsub : usub m.return_range.stop m.return_range.start
      = some (m.return_range.stop - m.return_range.start) := by
    simp [usub, hle]
  have hto : toUsize (m.return_range.stop - m.return_range.start)
      = some (m.return_range.stop - m.return_range.start) := by
    simp [toUsize, hfit]
  have hcase3 : m.return_range.stop ≤ usizeMAX →
      m.return_value = some (Memory.get m.memory m.return_range.start
        (m.return_range.stop - m.return_range.start)) := by
    intro h2
    have h1 : ¬ usizeMAX < m.return_range.start := by omega
    have h2n : ¬ usizeMAX < m.return_range.stop := by omega
    simp [Machine.return_value, h1, h2n, hsub, hto]
  refine ⟨?_, fun h1 => ?_, fun h1 h2 => ?_, hcase3, fun h2 hmem => ?_⟩
  · by_cases h1 : usizeMAX < m.return_range.start
    · simp [Machine.return_value, h1, hsub, hto]
    · by_cases h2 : usizeMAX < m.return_range.stop
      · simp [Machine.return_value, h1, h2, hsub, hto]
      · rw [hcase3 (by omega)]
        rfl
  · simp [Machine.return_value, h1, hsub, hto]
  · have h1n : ¬ usizeMAX < m.return_range.start := by omega
    simp [Machine.return_value, h1n, h2, hsub, hto]
  · rw [hcase3 h2, Memory.get_eq_drop_take m.memory _ _ (by omega)]

/-- Witness for C5 (amended): memory `[5, 6, 7, 8]` with return range
`1..3` yields exactly the slice `[6, 7]`. -/
theorem return_value_cases_witness :
    ({ Machine.new ⟨[]⟩ 0 with
        memory := [5, 6, 7, 8]
        return_range := ⟨1, 3⟩ } : Machine).return_value = some [6, 7] :=
  ((return_value_cases
      { Machine.new ⟨[]⟩ 0 with
        memory := [5, 6, 7, 8]
        return_range := ⟨1, 3⟩ }
      (by decide) (by decide)).2.2.2.2 (by decide) (by decide)).trans
    (by decide)

end Revm
